import Mathlib

/-!
Verification of the layout-algebra and thread-partitioning core of the
tile-based GPU code generator (`layout.cc`, `loop_partition.cc`).

Shallow embedding conventions:

* TVM `PrimExpr` values are modelled as natural numbers.  Every iteration
  variable in the source is bound to a domain `[0, extent)` (via
  `make_itervar` / `Range(0, dom)` / `Range::FromMinExtent(0, e)`), and all
  index and thread expressions built by this file use only `+`, `*`,
  `FloorDiv` and `FloorMod` by positive constants, which preserve
  non-negativity; on non-negative operands TVM's `FloorDiv`/`FloorMod`
  coincide with `Nat` division and remainder.
* An expression over the bound variables is modelled extensionally as a
  function `List Nat → Nat` from the tuple of variable values; `Substitute`
  becomes function composition.
* The external symbolic engine's bound inference (`Analyzer::int_set`) is
  modelled, per the spec's engine contract ("compute tight integer bounds"),
  as the exact minimum/maximum of the expression over the enumerated finite
  input domain.
-/

namespace TL

/-- Modelled from the spec: the engine binds each iteration variable to the
domain `[0, extent)`; `allIndices shape` enumerates every tuple of values of
the bound variables, i.e. the full iteration domain of a `Layout` whose
`InputShape` is `shape`. -/
def allIndices : List Nat → List (List Nat)
  | [] => [[]]
  | e :: rest => (List.range e).flatMap (fun v => (allIndices rest).map (fun xs => v :: xs))

/-- Maximum of a list of naturals (0 for the empty list); used to model the
engine's tight upper-bound inference over an enumerated domain. -/
def sup0 : List Nat → Nat
  | [] => 0
  | a :: l => max a (sup0 l)

/-- Modelled from the spec: `analyzer.int_set(e).max()` — the tight maximum
of expression `f` over the iteration domain `allIndices shape`. -/
def intSetMax (shape : List Nat) (f : List Nat → Nat) : Nat :=
  sup0 ((allIndices shape).map f)

/-- Modelled from the spec: the check `is_one(int_set(e + 1).min())`, i.e.
the tight minimum of `f` over the domain is exactly 0.  In the naturals this
says the value 0 is attained on the (non-empty) domain. -/
def minIsZero (shape : List Nat) (f : List Nat → Nat) : Bool :=
  (allIndices shape).any (fun xs => f xs == 0)

/-- `LayoutNode`: an ordered sequence of input iteration variables, each with
domain `[0, extent)` (field `inputShape`, mirroring `forward_var_`), and an
ordered sequence of output index expressions (`forward_index_`), modelled as
functions of the input-variable tuple. -/
structure Layout where
  inputShape : List Nat
  forwardIndex : List (List Nat → Nat)

/-- `LayoutNode::InputDim`. -/
def Layout.InputDim (L : Layout) : Nat := L.inputShape.length

/-- `LayoutNode::OutputDim`. -/
def Layout.OutputDim (L : Layout) : Nat := L.forwardIndex.length

/-- `LayoutNode::InputShape`. -/
def Layout.InputShape (L : Layout) : List Nat := L.inputShape

/-- `LayoutNode::Forward` at a full tuple of values: substitutes the values
for the input variables in every output expression. -/
def Layout.Forward (L : Layout) (xs : List Nat) : List Nat :=
  L.forwardIndex.map (fun f => f xs)

/-- The value `int_set(forward_index_[i] + 1).max()` computed by
`LayoutNode::OutputShape` for each output expression, before the min-check. -/
def outputShapeVal (L : Layout) : List Nat :=
  L.forwardIndex.map (fun f => intSetMax L.inputShape f + 1)

/-- `LayoutNode::OutputShape`: for each output expression the bound-inferred
maximum of `(expr + 1)`; `CHECK(is_one(ist.min()))` aborts (modelled as
`none`) unless the inferred minimum of every output expression is 0. -/
def Layout.OutputShape (L : Layout) : Option (List Nat) :=
  if L.forwardIndex.all (fun f => minIsZero L.inputShape f) then
    some (outputShapeVal L)
  else none

/-- `FragmentNode`: a `Layout` plus the replication variable `rep` with
domain `[0, replicateExtent)` (`thread_replicate_`) and the scalar thread-id
expression `forward_thread_`, a function of the input tuple and the
replication value. -/
structure Fragment extends Layout where
  replicateExtent : Nat
  forwardThread : List Nat → Nat → Nat

/-- `FragmentNode::ReplicateExtent`. -/
def Fragment.ReplicateExtent (F : Fragment) : Nat := F.replicateExtent

/-- `FragmentNode::ForwardThread` at a full tuple of values plus a
replication value. -/
def Fragment.ForwardThread (F : Fragment) (xs : List Nat) (r : Nat) : Nat :=
  F.forwardThread xs r

/-- The joint domain of a fragment's thread expression: all pairs of an
input tuple and a replication value (the analyzer binds both the forward
variables and `thread_replicate_`, cf. `FragmentNode::UpdateAnalyzer`). -/
def fragDomain (F : Fragment) : List (List Nat × Nat) :=
  (allIndices F.inputShape).flatMap
    (fun xs => (List.range F.replicateExtent).map (fun r => (xs, r)))

/-- The value `int_set(forward_thread_ + 1).max()` computed by
`FragmentNode::ThreadExtent`, before the min-check. -/
def ThreadExtentVal (F : Fragment) : Nat :=
  sup0 ((fragDomain F).map (fun p => F.forwardThread p.1 p.2)) + 1

/-- The check `CHECK(is_one(ist.min()))` of `FragmentNode::ThreadExtent`:
the thread expression attains 0 on the joint domain. -/
def threadMinOk (F : Fragment) : Bool :=
  (fragDomain F).any (fun p => F.forwardThread p.1 p.2 == 0)

/-- `FragmentNode::ThreadExtent`: the bound-inferred extent of the thread-id
expression; aborts (`none`) unless its minimum is 0. -/
def Fragment.ThreadExtent (F : Fragment) : Option Nat :=
  if threadMinOk F then some (ThreadExtentVal F) else none

/-- The value `OutputShape()[0]` used by `FragmentNode::Repeat` (as
`frag_len`) and `FragmentNode::DeReplicate` (as `idx_size`) when
`OutputDim() == 1`, before the min-check. -/
def outputExtentVal (L : Layout) : Nat :=
  intSetMax L.inputShape (L.forwardIndex.getD 0 (fun _ => 0)) + 1

/-- The min-check of `OutputShape()[0]` on the single output expression. -/
def idxMinOk (L : Layout) : Bool :=
  minIsZero L.inputShape (L.forwardIndex.getD 0 (fun _ => 0))

/-- The substitution `vmap[vᵢ] = FloorMod(vᵢ, InputShape()[i])` applied by
`FragmentNode::Repeat` to every forward expression. -/
def wrapCoords (shape : List Nat) (xs : List Nat) : List Nat :=
  List.zipWith (fun x e => x % e) xs shape

/-- The per-dimension quotients `FloorDiv(vᵢ, InputShape()[i])` from which
`FragmentNode::Repeat` builds its repeat index. -/
def quotCoords (shape : List Nat) (xs : List Nat) : List Nat :=
  List.zipWith (fun x e => x / e) xs shape

/-- Mixed-radix accumulation of `FragmentNode::Repeat`:
`repeats_index += repeat_stride * q; repeat_stride *= count`, processing the
first list elements first (stride 1 for the first processed dimension). -/
def mixRadix : List Nat → List Nat → Nat
  | q :: qs, c :: cs => q + c * mixRadix qs cs
  | _, _ => 0

/-- The `repeats_index` expression of `FragmentNode::Repeat`: dimensions are
processed last-to-first when `lower_dim_first`, else first-to-last. -/
def ridx (shape counts : List Nat) (lower_dim_first : Bool) (xs : List Nat) : Nat :=
  if lower_dim_first then mixRadix (quotCoords shape xs).reverse counts.reverse
  else mixRadix (quotCoords shape xs) counts

/-- `FragmentNode::Repeat(repeats, repeat_on_thread, lower_dim_first)`:
enlarges each input domain by `repeats[i]`; every forward expression reads
the original coordinate through `FloorMod`; the mixed-radix repeat index
either scales the thread id by `ThreadExtent()` (`repeat_on_thread`) or, for
a single-output fragment, scales the data index by `OutputShape()[0]`. -/
def Fragment.Repeat (F : Fragment) (repeats : List Nat)
    (repeat_on_thread lower_dim_first : Bool) : Fragment :=
  let newShape := List.zipWith (fun e r => e * r) F.inputShape repeats
  if repeat_on_thread then
    { inputShape := newShape
      forwardIndex := F.forwardIndex.map (fun f => fun xs => f (wrapCoords F.inputShape xs))
      replicateExtent := F.replicateExtent
      forwardThread := fun xs r =>
        F.forwardThread (wrapCoords F.inputShape xs) r
          + ThreadExtentVal F * ridx F.inputShape repeats lower_dim_first xs }
  else
    { inputShape := newShape
      forwardIndex := [fun xs =>
        F.forwardIndex.getD 0 (fun _ => 0) (wrapCoords F.inputShape xs)
          + outputExtentVal F.toLayout * ridx F.inputShape repeats lower_dim_first xs]
      replicateExtent := F.replicateExtent
      forwardThread := fun xs r => F.forwardThread (wrapCoords F.inputShape xs) r }

/-- `FragmentNode::Replicate(repeats)`: multiplies the replication extent;
the old replication value is recovered by `FloorMod`, and the thread id is
offset by `ThreadExtent() * FloorDiv(new_rep, ReplicateExtent())`. -/
def Fragment.Replicate (F : Fragment) (repeats : Nat) : Fragment :=
  { inputShape := F.inputShape
    forwardIndex := F.forwardIndex
    replicateExtent := F.replicateExtent * repeats
    forwardThread := fun xs r =>
      F.forwardThread xs (r % F.replicateExtent)
        + ThreadExtentVal F * (r / F.replicateExtent) }

/-- `FragmentNode::DeReplicate`: with `factor` the GCD of the replication
extent and the single output extent (both compile-time constants in this
model, mirroring `as_const_int` on `ReplicateExtent()`/`OutputShape()[0]`),
returns the fragment unchanged when `factor == 1`; otherwise folds `factor`
worth of replication into the data index (`FloorDiv`) and absorbs
`FloorMod(index, factor)` into the replication variable. -/
def Fragment.DeReplicate (F : Fragment) : Fragment :=
  let factor := Nat.gcd F.replicateExtent (outputExtentVal F.toLayout)
  if factor = 1 then F
  else
    { inputShape := F.inputShape
      forwardIndex := [fun xs => F.forwardIndex.getD 0 (fun _ => 0) xs / factor]
      replicateExtent := F.replicateExtent / factor
      forwardThread := fun xs r =>
        F.forwardThread xs
          (r * factor + F.forwardIndex.getD 0 (fun _ => 0) xs % factor) }

/-- `xor2x2` (layout.cc): `FloorMod(i + j, 2)`. -/
def xor2x2 (i j : Nat) : Nat := (i + j) % 2

/-- `xor4x4` (layout.cc): recombines `xor2x2` on the low and high bits. -/
def xor4x4 (i j : Nat) : Nat :=
  2 * xor2x2 (i / 2) (j / 2) + xor2x2 (i % 2) (j % 2)

/-- `xor8x8` (layout.cc): recombines `xor4x4` on the high bits with `xor2x2`
on the low bits. -/
def xor8x8 (i j : Nat) : Nat :=
  2 * xor4x4 (i / 2) (j / 2) + xor2x2 (i % 2) (j % 2)

/-- `makeGemmFragment8x8` (layout.cc): an 8×8 tile with
`forward_thread = FloorDiv(j, 2) + 4 * i`, index `FloorMod(j, 2)`, and
replication extent 1. -/
def makeGemmFragment8x8 : Fragment :=
  { inputShape := [8, 8]
    forwardIndex := [fun xs => xs.getD 1 0 % 2]
    replicateExtent := 1
    forwardThread := fun xs _ => xs.getD 1 0 / 2 + 4 * xs.getD 0 0 }

/-- `makeGemmFragmentC_F64` (layout.cc).  The `ICHECK` shape-divisibility
guards abort compilation when violated; the claims instantiate this factory
only at parameters satisfying them. -/
def makeGemmFragmentC_F64 (block_m block_n warp_m warp_n : Nat) : Fragment :=
  ((makeGemmFragment8x8.Repeat [block_m / warp_m, block_n / warp_n] true false).Repeat
    [warp_m / 8, warp_n / 8] false false)

/-- `makeGemmFragmentC` (layout.cc).  The two-argument call
`Repeat({2, 1}, false)` uses the header's default `lower_dim_first = true`
(the header is not in the sources; with `repeats = {2, 1}` both orders give
the same repeat index, since only the first dimension contributes). -/
def makeGemmFragmentC (block_m block_n warp_m warp_n element_size : Nat) : Fragment :=
  if element_size = 64 then makeGemmFragmentC_F64 block_m block_n warp_m warp_n
  else
    (((makeGemmFragment8x8.Repeat [2, 1] false true).Repeat
        [block_m / warp_m, block_n / warp_n] true false).Repeat
      [warp_m / 16, warp_n / 8] false false)

/-- Stage 1 of `makeGemmFragmentC(64, 64, 32, 32, 16)`:
`makeGemmFragment8x8()->Repeat({2, 1}, false)`. -/
def gemmCStage1 : Fragment := makeGemmFragment8x8.Repeat [2, 1] false true

/-- Stage 2: `base_layout->Repeat({64 / 32, 64 / 32}, true, false)`. -/
def gemmCStage2 : Fragment := gemmCStage1.Repeat [2, 2] true false

/-- Stage 3: `warp_layout->Repeat({32 / 16, 32 / 8}, false, false)`; this is
`makeGemmFragmentC(64, 64, 32, 32, 16)` itself. -/
def gemmCStage3 : Fragment := gemmCStage2.Repeat [2, 4] false false

/-- `LayoutNode::SEqualReduce`: two layouts are semantically equal iff they
have equal `InputDim`, equal `InputShape`, and structurally equal `Forward`
results at matching fresh symbolic variables — modelled extensionally as
agreement of the forward maps on the shared iteration domain. -/
def SemEqual (a b : Layout) : Prop :=
  a.InputDim = b.InputDim ∧ a.InputShape = b.InputShape ∧
    ∀ xs ∈ allIndices b.inputShape, a.Forward xs = b.Forward xs

/-- Modelled from the spec: the engine's
`DetectIterMap(..., IterMapLevel::Bijective)` succeeds (empty obstruction
list) exactly when the forward map is a bijective affine map of the bound
iteration domain; semantically, the forward map carries the input domain
one-to-one onto the output box `[0, OutputShape())`.  Extent-positive
iterators, injectivity and surjectivity are each stated over the enumerated
domains. -/
@[reducible] def DetectedBijective (L : Layout) : Prop :=
  (∀ e ∈ L.inputShape, 1 ≤ e) ∧
    (∀ xs ∈ allIndices L.inputShape, ∀ ys ∈ allIndices L.inputShape,
      L.Forward xs = L.Forward ys → xs = ys) ∧
    ∀ zs ∈ allIndices (outputShapeVal L), ∃ xs ∈ allIndices L.inputShape, L.Forward xs = zs

/-- Modelled from the spec: `InverseAffineIterMap` recovers, for an output
tuple, the unique input tuple the bijective forward map sends to it; over the
finite domain this is the first (hence only) matching tuple. -/
def invertAt (L : Layout) (zs : List Nat) : List Nat :=
  ((allIndices L.inputShape).find? (fun xs => L.Forward xs == zs)).getD
    (List.replicate L.InputDim 0)

/-- `LayoutNode::Inverse`: fresh output-indexed variables bounded by
`OutputShape()` become the inputs; the `i`-th backward index recovers the
`i`-th original input variable (`InverseAffineIterMap` maps any variable
absent from the detected map to constant 0, which over a `[0,1)` domain is
its unique value, so the pointwise inverse realizes that policy). -/
def Layout.Inverse (L : Layout) : Layout :=
  { inputShape := outputShapeVal L
    forwardIndex :=
      (List.range L.InputDim).map (fun i => fun zs => (invertAt L zs).getD i 0) }

/-- Variable `i` is not determined by the forward map: changing its value
(within its domain) never changes any output expression. -/
@[reducible] def UndeterminedVar (L : Layout) (i : Nat) : Prop :=
  ∀ xs ∈ allIndices L.inputShape, ∀ v ∈ List.range (L.inputShape.getD i 0),
    L.Forward (xs.set i v) = L.Forward xs

/-- `ForKind` of a `For` node (tir): the loop kinds distinguished by the
partitioner. -/
inductive ForKind where
  | parallel
  | serial
  | unrolled
deriving DecidableEq

/-- A statement tree: `For` loops with a kind, an extent and a body
(loop minimums are normalized to 0), sequencing, and non-loop leaves. -/
inductive Stmt where
  | forStmt (kind : ForKind) (extent : Nat) (body : Stmt)
  | seq (fst snd : Stmt)
  | evaluate

/-- `LoopPartitioner::VisitStmt_`: records the loop variable and extent when
the visited `For` is parallel-kind, then unconditionally delegates to
`StmtExprVisitor::VisitStmt_`, which recurses into every substatement; the
collected extents appear in visit (pre-)order. -/
def collect : Stmt → List Nat
  | .forStmt k e b => (if k = ForKind.parallel then [e] else []) ++ collect b
  | .seq a b => collect a ++ collect b
  | .evaluate => []

/-- The flattening loop of `LoopPartitioner::Partition`:
`flattened = flattened * extent + var` over the collected loops in order. -/
def flattenLoop (extents : List Nat) (xs : List Nat) : Nat :=
  (List.zip extents xs).foldl (fun acc p => acc * p.1 + p.2) 0

/-- `LoopPartitioner::Partition(op, num_thread)`: after collection, returns
`Fragment(loop_vars, {FloorDiv(flattened, num_thread)},
{FloorMod(flattened, num_thread)}, {})`; the undefined replicate iter-var
defaults to the size-1 `"unused"` variable (`Fragment::Fragment`), and the
collected extents are compile-time constants in this model (`as_const_int`
always succeeds). -/
def partitionFragment (s : Stmt) (num_thread : Nat) : Fragment :=
  { inputShape := collect s
    forwardIndex := [fun xs => flattenLoop (collect s) xs / num_thread]
    replicateExtent := 1
    forwardThread := fun xs _ => flattenLoop (collect s) xs % num_thread }

/-- The condition value of `ICHECK("Not Implemented case.")` in
`LoopPartitioner::Partition`: `ICHECK(x)` aborts when `x` is falsy, and its
argument here is the string literal `"Not Implemented case."` — a non-null
pointer, hence always truthy. -/
def icheckNotImplementedCase : Bool := true

/-- Whether `LoopPartitioner::Partition` aborts: it tests
`loop_size_full % num_thread != 0` and, inside that branch, runs
`ICHECK("Not Implemented case.")`. -/
def partitionAborts (s : Stmt) (num_thread : Nat) : Bool :=
  if (collect s).prod % num_thread ≠ 0 then !icheckNotImplementedCase else false

/-- The spec's description of the flattened index: a row-major flattened
index over the collected dimensions (each coordinate weighted by the product
of the extents of the later dimensions). -/
def specRowMajorFlatten : List Nat → List Nat → Nat
  | _ :: es, x :: xs => x * es.prod + specRowMajorFlatten es xs
  | _, _ => 0

/-- An extent `e` labels some parallel-kind `For` node somewhere in the
statement tree (at any depth, below loops of any kind and below non-loop
statements). -/
inductive ParallelOccurs : Nat → Stmt → Prop where
  | here (e : Nat) (b : Stmt) : ParallelOccurs e (.forStmt ForKind.parallel e b)
  | inBody {e : Nat} {b : Stmt} (k : ForKind) (e2 : Nat) :
      ParallelOccurs e b → ParallelOccurs e (.forStmt k e2 b)
  | inSeqFst {e : Nat} {a : Stmt} (b : Stmt) :
      ParallelOccurs e a → ParallelOccurs e (.seq a b)
  | inSeqSnd {e : Nat} {b : Stmt} (a : Stmt) :
      ParallelOccurs e b → ParallelOccurs e (.seq a b)

/-- Lift of a domain point into the `Repeat`-enlarged domain placing it in
the last repeat tile of every dimension: coordinate `x` with extent `e` and
count `c` becomes `x + e * (c - 1)`. -/
def liftTop : List Nat → List Nat → List Nat → List Nat
  | x :: xs, e :: es, c :: cs => (x + e * (c - 1)) :: liftTop xs es cs
  | _, _, _ => []

/-- A two-input, two-output layout swapping its coordinates (a concrete
bijective-affine layout used to instantiate hypotheses). -/
def swapLayout : Layout :=
  { inputShape := [2, 2]
    forwardIndex := [fun xs => xs.getD 1 0, fun xs => xs.getD 0 0] }

/-- A layout with a degenerate size-1 first input that its forward map does
not determine. -/
def dropLayout : Layout :=
  { inputShape := [1, 2]
    forwardIndex := [fun xs => xs.getD 1 0] }

/-- The identity layout on `[0, 3)` (a concrete layout used to instantiate
`OutputShape` hypotheses). -/
def idLayout3 : Layout :=
  { inputShape := [3]
    forwardIndex := [fun xs => xs.getD 0 0] }

/-- A two-deep parallel loop nest (extents 4 and 8) used to instantiate the
partitioning hypotheses. -/
def partitionExampleStmt : Stmt :=
  Stmt.forStmt ForKind.parallel 4 (Stmt.forStmt ForKind.parallel 8 Stmt.evaluate)

/-- `make_itervar` (layout.cc) gives every variable the domain
`Range(0, dom)`; a tuple lies in the iteration domain iff it is pointwise
below the shape. -/
theorem mem_allIndices {shape : List Nat} {xs : List Nat} :
    xs ∈ allIndices shape ↔ List.Forall₂ (· < ·) xs shape := by
  induction shape generalizing xs with
  | nil =>
    simp only [allIndices, List.mem_singleton]
    constructor
    · rintro rfl; exact List.Forall₂.nil
    · intro h; cases h; rfl
  | cons e rest ih =>
    simp only [allIndices, List.mem_flatMap, List.mem_map, List.mem_range]
    constructor
    · rintro ⟨v, hv, ys, hys, rfl⟩
      exact List.Forall₂.cons hv (ih.mp hys)
    · intro h
      cases h with
      | cons hv hys => exact ⟨_, hv, _, ih.mpr hys, rfl⟩

theorem length_of_mem_allIndices {shape xs : List Nat}
    (h : xs ∈ allIndices shape) : xs.length = shape.length :=
  (mem_allIndices.mp h).length_eq

theorem le_sup0 {a : Nat} {l : List Nat} (h : a ∈ l) : a ≤ sup0 l := by
  induction l with
  | nil => cases h
  | cons b l ih =>
    rcases List.mem_cons.mp h with rfl | h
    · exact le_max_left _ _
    · exact le_trans (ih h) (le_max_right _ _)

theorem sup0_le {l : List Nat} {b : Nat} (h : ∀ a ∈ l, a ≤ b) : sup0 l ≤ b := by
  induction l with
  | nil => exact Nat.zero_le b
  | cons a l ih =>
    exact max_le (h a (List.mem_cons_self a l)) (ih (fun x hx => h x (List.mem_cons_of_mem a hx)))

theorem sup0_mem {l : List Nat} (h : l ≠ []) : sup0 l ∈ l := by
  induction l with
  | nil => exact absurd rfl h
  | cons a l ih =>
    cases l with
    | nil => simp [sup0]
    | cons b t =>
      show max a (sup0 (b :: t)) ∈ a :: b :: t
      rcases max_choice a (sup0 (b :: t)) with hm | hm
      · rw [hm]; exact List.mem_cons_self _ _
      · rw [hm]; exact List.mem_cons_of_mem a (ih (by simp))

/-- The maximum of a mapped list equals `G` as soon as `G` bounds every value
and is attained; the shape shared by every bound-inference argument below. -/
theorem sup0_map_eq {α : Type} {D : List α} {g : α → Nat} {G : Nat}
    (hle : ∀ a ∈ D, g a ≤ G) (hex : ∃ a ∈ D, g a = G) :
    sup0 (D.map g) = G := by
  rcases hex with ⟨a, ha, hga⟩
  refine le_antisymm (sup0_le ?_) (hga ▸ le_sup0 (List.mem_map_of_mem g ha))
  intro x hx
  rcases List.mem_map.mp hx with ⟨b, hb, rfl⟩
  exact hle b hb

theorem mem_fragDomain {F : Fragment} {p : List Nat × Nat} :
    p ∈ fragDomain F ↔ p.1 ∈ allIndices F.inputShape ∧ p.2 < F.replicateExtent := by
  cases p with
  | mk xs r =>
    simp only [fragDomain, List.mem_flatMap, List.mem_map, List.mem_range]
    constructor
    · rintro ⟨ys, hys, s, hs, h⟩
      cases h; exact ⟨hys, hs⟩
    · rintro ⟨hxs, hr⟩; exact ⟨xs, hxs, r, hr, rfl⟩

/-- A mixed-radix number with every digit below its radix is below the
product of the radices. -/
theorem mixRadix_lt {qs cs : List Nat} (h : List.Forall₂ (· < ·) qs cs) :
    mixRadix qs cs < cs.prod := by
  induction h with
  | nil => simp [mixRadix]
  | @cons q c qs cs hqc _ ih =>
    simp only [mixRadix, List.prod_cons]
    calc q + c * mixRadix qs cs < c + c * mixRadix qs cs := by omega
    _ = c * (mixRadix qs cs + 1) := by ring
    _ ≤ c * cs.prod := Nat.mul_le_mul_left c ih

/-- A mixed-radix number with every digit maximal equals `prod - 1`. -/
theorem mixRadix_maximal {cs : List Nat} (h : ∀ c ∈ cs, 1 ≤ c) :
    mixRadix (cs.map (fun c => c - 1)) cs = cs.prod - 1 := by
  induction cs with
  | nil => simp [mixRadix]
  | cons c cs ih =>
    have hc : 1 ≤ c := h c (List.mem_cons_self _ _)
    have hp : 1 ≤ cs.prod :=
      List.prod_pos (fun a ha => h a (List.mem_cons_of_mem c ha))
    simp only [List.map_cons, mixRadix, List.prod_cons]
    rw [ih (fun a ha => h a (List.mem_cons_of_mem c ha))]
    have : c * cs.prod = (c - 1) + c * (cs.prod - 1) + 1 := by
      cases' Nat.exists_eq_add_of_le hc with a ha
      cases' Nat.exists_eq_add_of_le hp with b hb
      rw [ha, hb]; simp only [Nat.add_sub_cancel_left]; ring
    omega

/-- A mixed-radix number whose digits are all zero is zero. -/
theorem mixRadix_zeros {qs cs : List Nat} (h : ∀ q ∈ qs, q = 0) :
    mixRadix qs cs = 0 := by
  induction qs generalizing cs with
  | nil => cases cs <;> simp [mixRadix]
  | cons q qs ih =>
    cases cs with
    | nil => simp [mixRadix]
    | cons c cs =>
      have hq : q = 0 := h q (List.mem_cons_self _ _)
      have := @ih cs (fun x hx => h x (List.mem_cons_of_mem q hx))
      simp [mixRadix, hq, this]

/-- The all-zeros tuple lies in any positive-extent iteration domain. -/
theorem zeros_mem_allIndices {shape : List Nat} (h : ∀ e ∈ shape, 1 ≤ e) :
    shape.map (fun _ => 0) ∈ allIndices shape := by
  rw [mem_allIndices]
  induction shape with
  | nil => exact List.Forall₂.nil
  | cons e es ih =>
    exact List.Forall₂.cons (h e (List.mem_cons_self _ _))
      (ih (fun x hx => h x (List.mem_cons_of_mem e hx)))

/-- Points of the `Repeat`-enlarged domain wrap back into the original
domain, with per-dimension repeat quotients below the repeat counts. -/
theorem wrap_quot_of_mem_repeatDomain {shape counts xs : List Nat}
    (hlen : counts.length = shape.length) (he : ∀ e ∈ shape, 1 ≤ e)
    (hxs : xs ∈ allIndices (List.zipWith (fun e r => e * r) shape counts)) :
    wrapCoords shape xs ∈ allIndices shape ∧
      List.Forall₂ (· < ·) (quotCoords shape xs) counts := by
  rw [mem_allIndices] at hxs ⊢
  induction shape generalizing counts xs with
  | nil =>
    have : counts = [] := List.length_eq_zero.mp hlen
    subst this
    cases hxs
    exact ⟨List.Forall₂.nil, List.Forall₂.nil⟩
  | cons e es ih =>
    cases counts with
    | nil => cases hlen
    | cons c cs =>
      simp only [List.zipWith_cons_cons] at hxs
      cases hxs with
      | cons hx ht =>
        rename_i x xt
        have he1 : 1 ≤ e := he e (List.mem_cons_self _ _)
        have hlen2 : cs.length = es.length := by simpa using hlen
        have ih2 := ih hlen2
          (fun a ha => he a (List.mem_cons_of_mem e ha)) ht
        refine ⟨List.Forall₂.cons (Nat.mod_lt x he1) ih2.1,
          List.Forall₂.cons ?_ ih2.2⟩
        exact (Nat.div_lt_iff_lt_mul he1).mpr (Nat.mul_comm e c ▸ hx)

/-- A point of the original domain also lies in the `Repeat`-enlarged
domain; `FloorMod` leaves it unchanged and all its repeat quotients vanish. -/
theorem keep_in_repeatDomain {shape counts xs : List Nat}
    (hlen : counts.length = shape.length) (hc : ∀ c ∈ counts, 1 ≤ c)
    (hxs : xs ∈ allIndices shape) :
    xs ∈ allIndices (List.zipWith (fun e r => e * r) shape counts) ∧
      wrapCoords shape xs = xs ∧ ∀ q ∈ quotCoords shape xs, q = 0 := by
  rw [mem_allIndices] at hxs ⊢
  induction shape generalizing counts xs with
  | nil =>
    have : counts = [] := List.length_eq_zero.mp hlen
    subst this
    cases hxs
    exact ⟨List.Forall₂.nil, rfl, by simp [quotCoords]⟩
  | cons e es ih =>
    cases counts with
    | nil => cases hlen
    | cons c cs =>
      cases hxs with
      | cons hx ht =>
        rename_i x xt
        have hc1 : 1 ≤ c := hc c (List.mem_cons_self _ _)
        have hlen2 : cs.length = es.length := by simpa using hlen
        have ih2 := ih hlen2
          (fun a ha => hc a (List.mem_cons_of_mem c ha)) ht
        have hxec : x < e * c :=
          lt_of_lt_of_le hx (Nat.le_mul_of_pos_right e hc1)
        refine ⟨List.Forall₂.cons hxec ih2.1, ?_, ?_⟩
        · simpa [wrapCoords, Nat.mod_eq_of_lt hx] using ih2.2.1
        · intro q hq
          rcases List.mem_cons.mp hq with rfl | hq
          · exact Nat.div_eq_of_lt hx
          · exact ih2.2.2 q hq

/-- `liftTop` lands in the `Repeat`-enlarged domain, wraps back to the
original point, and has every repeat quotient maximal. -/
theorem liftTop_spec {shape counts xs : List Nat}
    (hlen : counts.length = shape.length) (he : ∀ e ∈ shape, 1 ≤ e)
    (hc : ∀ c ∈ counts, 1 ≤ c) (hxs : xs ∈ allIndices shape) :
    liftTop xs shape counts ∈ allIndices (List.zipWith (fun e r => e * r) shape counts) ∧
      wrapCoords shape (liftTop xs shape counts) = xs ∧
      quotCoords shape (liftTop xs shape counts) = counts.map (fun c => c - 1) := by
  rw [mem_allIndices] at hxs ⊢
  induction shape generalizing counts xs with
  | nil =>
    have : counts = [] := List.length_eq_zero.mp hlen
    subst this
    cases hxs
    exact ⟨List.Forall₂.nil, rfl, rfl⟩
  | cons e es ih =>
    cases counts with
    | nil => cases hlen
    | cons c cs =>
      cases hxs with
      | cons hx ht =>
        rename_i x xt
        have he1 : 1 ≤ e := he e (List.mem_cons_self _ _)
        have hc1 : 1 ≤ c := hc c (List.mem_cons_self _ _)
        have hlen2 : cs.length = es.length := by simpa using hlen
        have ih2 := ih hlen2
          (fun a ha => he a (List.mem_cons_of_mem e ha))
          (fun a ha => hc a (List.mem_cons_of_mem c ha)) ht
        have hmul : e * (c - 1) + e = e * c := by
          cases' Nat.exists_eq_add_of_le hc1 with a ha
          rw [ha]; simp only [Nat.add_sub_cancel_left]; ring
        refine ⟨List.Forall₂.cons (show x + e * (c - 1) < e * c by omega) ih2.1, ?_, ?_⟩
        · have : (x + e * (c - 1)) % e = x := by
            rw [Nat.add_mul_mod_self_left, Nat.mod_eq_of_lt hx]
          simpa [liftTop, wrapCoords, this] using ih2.2.1
        · have : (x + e * (c - 1)) / e = c - 1 := by
            rw [Nat.add_mul_div_left _ _ he1, Nat.div_eq_of_lt hx, Nat.zero_add]
          simpa [liftTop, quotCoords, this] using ih2.2.2

/-- On the `Repeat`-enlarged domain the repeat index stays below the product
of the repeat counts, for either composition order. -/
theorem ridx_lt {shape counts xs : List Nat} (ldf : Bool)
    (hlen : counts.length = shape.length) (he : ∀ e ∈ shape, 1 ≤ e)
    (hxs : xs ∈ allIndices (List.zipWith (fun e r => e * r) shape counts)) :
    ridx shape counts ldf xs < counts.prod := by
  have h := (wrap_quot_of_mem_repeatDomain hlen he hxs).2
  cases ldf with
  | false => simpa [ridx] using mixRadix_lt h
  | true =>
    have h2 : List.Forall₂ (· < ·) (quotCoords shape xs).reverse counts.reverse :=
      List.forall₂_reverse_iff.mpr h
    simpa [ridx, List.prod_reverse] using mixRadix_lt h2

/-- At a lifted point the repeat index is maximal, for either composition
order. -/
theorem ridx_liftTop {shape counts xs : List Nat} (ldf : Bool)
    (hlen : counts.length = shape.length) (he : ∀ e ∈ shape, 1 ≤ e)
    (hc : ∀ c ∈ counts, 1 ≤ c) (hxs : xs ∈ allIndices shape) :
    ridx shape counts ldf (liftTop xs shape counts) = counts.prod - 1 := by
  have h := (liftTop_spec hlen he hc hxs).2.2
  cases ldf with
  | false => simp [ridx, h, mixRadix_maximal hc]
  | true =>
    have hcrev : ∀ c ∈ counts.reverse, 1 ≤ c := by
      intro a ha; exact hc a (List.mem_reverse.mp ha)
    simp only [ridx, if_pos, h, ← List.map_reverse]
    rw [mixRadix_maximal hcrev, List.prod_reverse]

/-- At a point kept from the original domain the repeat index vanishes, for
either composition order. -/
theorem ridx_keep {shape counts xs : List Nat} (ldf : Bool)
    (hq : ∀ q ∈ quotCoords shape xs, q = 0) :
    ridx shape counts ldf xs = 0 := by
  cases ldf with
  | false => simpa [ridx] using mixRadix_zeros hq
  | true =>
    have : ∀ q ∈ (quotCoords shape xs).reverse, q = 0 := by
      intro a ha; exact hq a (List.mem_reverse.mp ha)
    simpa [ridx] using mixRadix_zeros this

theorem Repeat_true_inputShape (F : Fragment) (counts : List Nat) (ldf : Bool) :
    (F.Repeat counts true ldf).inputShape
      = List.zipWith (fun e r => e * r) F.inputShape counts := rfl

theorem Repeat_false_inputShape (F : Fragment) (counts : List Nat) (ldf : Bool) :
    (F.Repeat counts false ldf).inputShape
      = List.zipWith (fun e r => e * r) F.inputShape counts := rfl

theorem Repeat_true_replicateExtent (F : Fragment) (counts : List Nat) (ldf : Bool) :
    (F.Repeat counts true ldf).replicateExtent = F.replicateExtent := rfl

theorem Repeat_false_replicateExtent (F : Fragment) (counts : List Nat) (ldf : Bool) :
    (F.Repeat counts false ldf).replicateExtent = F.replicateExtent := rfl

theorem Repeat_true_forwardThread (F : Fragment) (counts : List Nat) (ldf : Bool) :
    (F.Repeat counts true ldf).forwardThread
      = fun xs r => F.forwardThread (wrapCoords F.inputShape xs) r
          + ThreadExtentVal F * ridx F.inputShape counts ldf xs := rfl

theorem Repeat_false_forwardThread (F : Fragment) (counts : List Nat) (ldf : Bool) :
    (F.Repeat counts false ldf).forwardThread
      = fun xs r => F.forwardThread (wrapCoords F.inputShape xs) r := rfl

theorem Repeat_true_forwardIndex (F : Fragment) (counts : List Nat) (ldf : Bool) :
    (F.Repeat counts true ldf).forwardIndex
      = F.forwardIndex.map (fun f => fun xs => f (wrapCoords F.inputShape xs)) := rfl

theorem Repeat_false_forwardIndex (F : Fragment) (counts : List Nat) (ldf : Bool) :
    (F.Repeat counts false ldf).forwardIndex
      = [fun xs => F.forwardIndex.getD 0 (fun _ => 0) (wrapCoords F.inputShape xs)
          + outputExtentVal F.toLayout * ridx F.inputShape counts ldf xs] := rfl

/-- The thread maximum of a positive-extent fragment is attained on its
joint domain. -/
theorem exists_thread_sup (F : Fragment) (he : ∀ e ∈ F.inputShape, 1 ≤ e)
    (hr : 1 ≤ F.replicateExtent) :
    ∃ p ∈ fragDomain F, F.forwardThread p.1 p.2
        = sup0 ((fragDomain F).map (fun p => F.forwardThread p.1 p.2)) := by
  have hmem : (F.inputShape.map (fun _ => 0), 0) ∈ fragDomain F :=
    mem_fragDomain.mpr ⟨zeros_mem_allIndices he, hr⟩
  have hne : (fragDomain F).map (fun p => F.forwardThread p.1 p.2) ≠ [] :=
    List.ne_nil_of_mem (List.mem_map_of_mem _ hmem)
  rcases List.mem_map.mp (sup0_mem hne) with ⟨p0, hp0, hv0⟩
  exact ⟨p0, hp0, hv0⟩

/-- The maximum of an expression over a positive-extent iteration domain is
attained. -/
theorem exists_fun_sup (shape : List Nat) (f : List Nat → Nat)
    (he : ∀ e ∈ shape, 1 ≤ e) :
    ∃ xs ∈ allIndices shape, f xs = sup0 ((allIndices shape).map f) := by
  have hne : (allIndices shape).map f ≠ [] :=
    List.ne_nil_of_mem (List.mem_map_of_mem _ (zeros_mem_allIndices he))
  rcases List.mem_map.mp (sup0_mem hne) with ⟨xs, hxs, hv⟩
  exact ⟨xs, hxs, hv⟩

/-- `Repeat` with `repeat_on_thread` multiplies `ThreadExtent()` by the
product of the repeat counts (each repeated tile lands on disjoint, higher
thread ids). -/
theorem ThreadExtentVal_repeat_on_thread (F : Fragment) (counts : List Nat) (ldf : Bool)
    (hlen : counts.length = F.InputDim) (he : ∀ e ∈ F.inputShape, 1 ≤ e)
    (hc : ∀ c ∈ counts, 1 ≤ c) (hr : 1 ≤ F.replicateExtent) :
    ThreadExtentVal (F.Repeat counts true ldf) = ThreadExtentVal F * counts.prod := by
  have hP : 1 ≤ counts.prod := List.prod_pos hc
  rcases exists_thread_sup F he hr with ⟨p0, hp0, hv0⟩
  rcases mem_fragDomain.mp hp0 with ⟨hp0x, hp0r⟩
  set supT := sup0 ((fragDomain F).map (fun p => F.forwardThread p.1 p.2)) with hsupT
  have hE : ThreadExtentVal F = supT + 1 := rfl
  have key : sup0 ((fragDomain (F.Repeat counts true ldf)).map
      (fun p => (F.Repeat counts true ldf).forwardThread p.1 p.2))
      = supT + ThreadExtentVal F * (counts.prod - 1) := by
    apply sup0_map_eq
    · intro p hp
      rcases mem_fragDomain.mp hp with ⟨hpx, hpr⟩
      rw [Repeat_true_inputShape] at hpx
      rw [Repeat_true_replicateExtent] at hpr
      rw [Repeat_true_forwardThread]
      show F.forwardThread (wrapCoords F.inputShape p.1) p.2
          + ThreadExtentVal F * ridx F.inputShape counts ldf p.1
          ≤ supT + ThreadExtentVal F * (counts.prod - 1)
      obtain ⟨hw, _⟩ := wrap_quot_of_mem_repeatDomain hlen he hpx
      have h1 : F.forwardThread (wrapCoords F.inputShape p.1) p.2 ≤ supT :=
        le_sup0 (List.mem_map_of_mem _
          ((@mem_fragDomain F (wrapCoords F.inputShape p.1, p.2)).mpr ⟨hw, hpr⟩))
      have h2 : ridx F.inputShape counts ldf p.1 ≤ counts.prod - 1 := by
        have := ridx_lt ldf hlen he hpx; omega
      exact Nat.add_le_add h1 (Nat.mul_le_mul_left _ h2)
    · refine ⟨(liftTop p0.1 F.inputShape counts, p0.2), mem_fragDomain.mpr ⟨?_, ?_⟩, ?_⟩
      · rw [Repeat_true_inputShape]
        exact (liftTop_spec hlen he hc hp0x).1
      · rw [Repeat_true_replicateExtent]; exact hp0r
      · rw [Repeat_true_forwardThread]
        show F.forwardThread (wrapCoords F.inputShape (liftTop p0.1 F.inputShape counts)) p0.2
            + ThreadExtentVal F * ridx F.inputShape counts ldf (liftTop p0.1 F.inputShape counts)
            = supT + ThreadExtentVal F * (counts.prod - 1)
        rw [(liftTop_spec hlen he hc hp0x).2.1, ridx_liftTop ldf hlen he hc hp0x, hv0]
  show sup0 ((fragDomain (F.Repeat counts true ldf)).map
      (fun p => (F.Repeat counts true ldf).forwardThread p.1 p.2)) + 1
      = ThreadExtentVal F * counts.prod
  rw [key, hE]
  cases' Nat.exists_eq_add_of_le hP with a ha
  rw [ha]; simp only [Nat.add_sub_cancel_left]; ring

/-- `Repeat` with `repeat_on_thread = false` leaves `ThreadExtent()`
unchanged (all repeats share thread ids). -/
theorem ThreadExtentVal_repeat_on_data (F : Fragment) (counts : List Nat) (ldf : Bool)
    (hlen : counts.length = F.InputDim) (he : ∀ e ∈ F.inputShape, 1 ≤ e)
    (hc : ∀ c ∈ counts, 1 ≤ c) (hr : 1 ≤ F.replicateExtent) :
    ThreadExtentVal (F.Repeat counts false ldf) = ThreadExtentVal F := by
  rcases exists_thread_sup F he hr with ⟨p0, hp0, hv0⟩
  rcases mem_fragDomain.mp hp0 with ⟨hp0x, hp0r⟩
  set supT := sup0 ((fragDomain F).map (fun p => F.forwardThread p.1 p.2)) with hsupT
  have key : sup0 ((fragDomain (F.Repeat counts false ldf)).map
      (fun p => (F.Repeat counts false ldf).forwardThread p.1 p.2)) = supT := by
    apply sup0_map_eq
    · intro p hp
      rcases mem_fragDomain.mp hp with ⟨hpx, hpr⟩
      rw [Repeat_false_inputShape] at hpx
      rw [Repeat_false_replicateExtent] at hpr
      rw [Repeat_false_forwardThread]
      obtain ⟨hw, _⟩ := wrap_quot_of_mem_repeatDomain hlen he hpx
      exact le_sup0 (List.mem_map_of_mem _
        ((@mem_fragDomain F (wrapCoords F.inputShape p.1, p.2)).mpr ⟨hw, hpr⟩))
    · obtain ⟨hmem, hwrap, _⟩ := keep_in_repeatDomain hlen hc hp0x
      refine ⟨(p0.1, p0.2), mem_fragDomain.mpr ⟨?_, ?_⟩, ?_⟩
      · rw [Repeat_false_inputShape]; exact hmem
      · rw [Repeat_false_replicateExtent]; exact hp0r
      · rw [Repeat_false_forwardThread]
        show F.forwardThread (wrapCoords F.inputShape p0.1) p0.2 = supT
        rw [hwrap, hv0]
  show sup0 ((fragDomain (F.Repeat counts false ldf)).map
      (fun p => (F.Repeat counts false ldf).forwardThread p.1 p.2)) + 1 = supT + 1
  rw [key]

/-- `Repeat` with `repeat_on_thread` leaves the single output extent
unchanged: the data index merely reads its coordinates through `FloorMod`. -/
theorem outputExtentVal_repeat_on_thread (F : Fragment) (counts : List Nat) (ldf : Bool)
    (hOD : F.OutputDim = 1) (hlen : counts.length = F.InputDim)
    (he : ∀ e ∈ F.inputShape, 1 ≤ e) (hc : ∀ c ∈ counts, 1 ≤ c) :
    outputExtentVal (F.Repeat counts true ldf).toLayout = outputExtentVal F.toLayout := by
  obtain ⟨f0, hf0⟩ := List.length_eq_one.mp hOD
  rcases exists_fun_sup F.inputShape f0 he with ⟨xs0, hxs0, hv0⟩
  have hidx : (F.Repeat counts true ldf).forwardIndex
      = [fun xs => f0 (wrapCoords F.inputShape xs)] := by
    rw [Repeat_true_forwardIndex, hf0]; rfl
  show intSetMax (F.Repeat counts true ldf).inputShape
      ((F.Repeat counts true ldf).forwardIndex.getD 0 (fun _ => 0)) + 1
      = intSetMax F.inputShape (F.forwardIndex.getD 0 (fun _ => 0)) + 1
  rw [hidx, hf0, Repeat_true_inputShape]
  show intSetMax (List.zipWith (fun e r => e * r) F.inputShape counts)
      (fun xs => f0 (wrapCoords F.inputShape xs)) + 1
      = intSetMax F.inputShape f0 + 1
  unfold intSetMax
  congr 1
  apply sup0_map_eq
  · intro xs hxs
    obtain ⟨hw, _⟩ := wrap_quot_of_mem_repeatDomain hlen he hxs
    exact le_sup0 (List.mem_map_of_mem _ hw)
  · obtain ⟨hmem, hwrap, _⟩ := keep_in_repeatDomain hlen hc hxs0
    exact ⟨xs0, hmem, by rw [hwrap, hv0]⟩

/-- `Repeat` with `repeat_on_thread = false` multiplies the single output
extent by the product of the repeat counts (the flattened data index is
scaled by `OutputShape()[0]`). -/
theorem outputExtentVal_repeat_on_data (F : Fragment) (counts : List Nat) (ldf : Bool)
    (hlen : counts.length = F.InputDim) (he : ∀ e ∈ F.inputShape, 1 ≤ e)
    (hc : ∀ c ∈ counts, 1 ≤ c) :
    outputExtentVal (F.Repeat counts false ldf).toLayout
      = outputExtentVal F.toLayout * counts.prod := by
  have hP : 1 ≤ counts.prod := List.prod_pos hc
  set f0 := F.forwardIndex.getD 0 (fun _ => 0) with hf0
  rcases exists_fun_sup F.inputShape f0 he with ⟨xs0, hxs0, hv0⟩
  set supI := sup0 ((allIndices F.inputShape).map f0) with hsupI
  have hE : outputExtentVal F.toLayout = supI + 1 := rfl
  show intSetMax (F.Repeat counts false ldf).inputShape
      ((F.Repeat counts false ldf).forwardIndex.getD 0 (fun _ => 0)) + 1
      = outputExtentVal F.toLayout * counts.prod
  rw [Repeat_false_forwardIndex, Repeat_false_inputShape]
  show intSetMax (List.zipWith (fun e r => e * r) F.inputShape counts)
      (fun xs => f0 (wrapCoords F.inputShape xs)
        + outputExtentVal F.toLayout * ridx F.inputShape counts ldf xs) + 1
      = outputExtentVal F.toLayout * counts.prod
  unfold intSetMax
  have key : sup0 ((allIndices (List.zipWith (fun e r => e * r) F.inputShape counts)).map
      (fun xs => f0 (wrapCoords F.inputShape xs)
        + outputExtentVal F.toLayout * ridx F.inputShape counts ldf xs))
      = supI + outputExtentVal F.toLayout * (counts.prod - 1) := by
    apply sup0_map_eq
    · intro xs hxs
      obtain ⟨hw, _⟩ := wrap_quot_of_mem_repeatDomain hlen he hxs
      have h1 : f0 (wrapCoords F.inputShape xs) ≤ supI :=
        le_sup0 (List.mem_map_of_mem _ hw)
      have h2 : ridx F.inputShape counts ldf xs ≤ counts.prod - 1 := by
        have := ridx_lt ldf hlen he hxs; omega
      exact Nat.add_le_add h1 (Nat.mul_le_mul_left _ h2)
    · refine ⟨liftTop xs0 F.inputShape counts, (liftTop_spec hlen he hc hxs0).1, ?_⟩
      rw [(liftTop_spec hlen he hc hxs0).2.1, ridx_liftTop ldf hlen he hc hxs0, hv0]
  rw [key, hE]
  cases' Nat.exists_eq_add_of_le hP with a ha
  rw [ha]; simp only [Nat.add_sub_cancel_left]; ring

/-- When the thread expression attains 0, it still does after any `Repeat`
(at the same point, kept in the enlarged domain, where the repeat index
vanishes). -/
theorem threadMinOk_repeat (F : Fragment) (counts : List Nat) (b ldf : Bool)
    (hlen : counts.length = F.InputDim) (hc : ∀ c ∈ counts, 1 ≤ c)
    (hmin : threadMinOk F = true) : threadMinOk (F.Repeat counts b ldf) = true := by
  rw [threadMinOk, List.any_eq_true] at hmin ⊢
  rcases hmin with ⟨p0, hp0, hv⟩
  rw [beq_iff_eq] at hv
  rcases mem_fragDomain.mp hp0 with ⟨hx, hr⟩
  obtain ⟨hmem, hwrap, hq⟩ := keep_in_repeatDomain hlen hc hx
  cases b with
  | true =>
    refine ⟨(p0.1, p0.2), (@mem_fragDomain (F.Repeat counts true ldf) (p0.1, p0.2)).mpr
      ⟨by rw [Repeat_true_inputShape]; exact hmem,
       by rw [Repeat_true_replicateExtent]; exact hr⟩, ?_⟩
    rw [beq_iff_eq, Repeat_true_forwardThread]
    show F.forwardThread (wrapCoords F.inputShape p0.1) p0.2
        + ThreadExtentVal F * ridx F.inputShape counts ldf p0.1 = 0
    rw [hwrap, hv, ridx_keep ldf hq, Nat.mul_zero]
  | false =>
    refine ⟨(p0.1, p0.2), (@mem_fragDomain (F.Repeat counts false ldf) (p0.1, p0.2)).mpr
      ⟨by rw [Repeat_false_inputShape]; exact hmem,
       by rw [Repeat_false_replicateExtent]; exact hr⟩, ?_⟩
    rw [beq_iff_eq, Repeat_false_forwardThread]
    show F.forwardThread (wrapCoords F.inputShape p0.1) p0.2 = 0
    rw [hwrap, hv]

/-- When the single data index attains 0, it still does after a
`repeat_on_thread` `Repeat`. -/
theorem idxMinOk_repeat_on_thread (F : Fragment) (counts : List Nat) (ldf : Bool)
    (hOD : F.OutputDim = 1) (hlen : counts.length = F.InputDim)
    (hc : ∀ c ∈ counts, 1 ≤ c) (hmin : idxMinOk F.toLayout = true) :
    idxMinOk (F.Repeat counts true ldf).toLayout = true := by
  obtain ⟨f0, hf0⟩ := List.length_eq_one.mp hOD
  rw [idxMinOk, minIsZero, List.any_eq_true] at hmin ⊢
  rcases hmin with ⟨xs0, hxs0, hv⟩
  rw [beq_iff_eq] at hv
  rw [hf0] at hv
  obtain ⟨hmem, hwrap, _⟩ := keep_in_repeatDomain hlen hc hxs0
  refine ⟨xs0, by rw [Repeat_true_inputShape]; exact hmem, ?_⟩
  rw [beq_iff_eq, Repeat_true_forwardIndex, hf0]
  show f0 (wrapCoords F.inputShape xs0) = 0
  rw [hwrap]
  exact hv

/-- When the single data index attains 0, it still does after a data-side
`Repeat` (at a kept point the scaled repeat index vanishes). -/
theorem idxMinOk_repeat_on_data (F : Fragment) (counts : List Nat) (ldf : Bool)
    (hlen : counts.length = F.InputDim) (hc : ∀ c ∈ counts, 1 ≤ c)
    (hmin : idxMinOk F.toLayout = true) :
    idxMinOk (F.Repeat counts false ldf).toLayout = true := by
  rw [idxMinOk, minIsZero, List.any_eq_true] at hmin ⊢
  rcases hmin with ⟨xs0, hxs0, hv⟩
  rw [beq_iff_eq] at hv
  obtain ⟨hmem, hwrap, hq⟩ := keep_in_repeatDomain hlen hc hxs0
  refine ⟨xs0, by rw [Repeat_false_inputShape]; exact hmem, ?_⟩
  rw [beq_iff_eq, Repeat_false_forwardIndex]
  show F.forwardIndex.getD 0 (fun _ => 0) (wrapCoords F.inputShape xs0)
      + outputExtentVal F.toLayout * ridx F.inputShape counts ldf xs0 = 0
  rw [hwrap, hv, ridx_keep ldf hq, Nat.mul_zero]

/-- When `factor == 1` (coprime replication and output extents),
`DeReplicate` returns the fragment itself (`GetRef<Fragment>(this)`). -/
theorem dereplicate_eq_of_gcd_one (G : Fragment)
    (h : Nat.gcd G.replicateExtent (outputExtentVal G.toLayout) = 1) :
    G.DeReplicate = G := by
  simp [Fragment.DeReplicate, h]

theorem DeReplicate_inputShape (G : Fragment)
    (hf : ¬ Nat.gcd G.replicateExtent (outputExtentVal G.toLayout) = 1) :
    G.DeReplicate.inputShape = G.inputShape := by
  simp [Fragment.DeReplicate, hf]

theorem DeReplicate_replicateExtent (G : Fragment)
    (hf : ¬ Nat.gcd G.replicateExtent (outputExtentVal G.toLayout) = 1) :
    G.DeReplicate.replicateExtent
      = G.replicateExtent / Nat.gcd G.replicateExtent (outputExtentVal G.toLayout) := by
  simp [Fragment.DeReplicate, hf]

theorem DeReplicate_forwardThread (G : Fragment)
    (hf : ¬ Nat.gcd G.replicateExtent (outputExtentVal G.toLayout) = 1) :
    G.DeReplicate.forwardThread
      = fun xs r => G.forwardThread xs
          (r * Nat.gcd G.replicateExtent (outputExtentVal G.toLayout)
            + G.forwardIndex.getD 0 (fun _ => 0) xs
              % Nat.gcd G.replicateExtent (outputExtentVal G.toLayout)) := by
  simp [Fragment.DeReplicate, hf]

theorem DeReplicate_forwardIndex (G : Fragment)
    (hf : ¬ Nat.gcd G.replicateExtent (outputExtentVal G.toLayout) = 1) :
    G.DeReplicate.forwardIndex
      = [fun xs => G.forwardIndex.getD 0 (fun _ => 0) xs
          / Nat.gcd G.replicateExtent (outputExtentVal G.toLayout)] := by
  simp [Fragment.DeReplicate, hf]

/-- The thread extent is monotone under pointwise embedding of thread
values. -/
theorem ThreadExtentVal_le_of_embed (A B : Fragment)
    (h : ∀ p ∈ fragDomain A, ∃ q ∈ fragDomain B,
      A.forwardThread p.1 p.2 = B.forwardThread q.1 q.2) :
    ThreadExtentVal A ≤ ThreadExtentVal B := by
  apply Nat.add_le_add_right
  apply sup0_le
  intro a ha
  rcases List.mem_map.mp ha with ⟨p, hp, rfl⟩
  rcases h p hp with ⟨q, hq, heq⟩
  rw [heq]
  exact le_sup0 (List.mem_map_of_mem _ hq)

/-- The single output extent is monotone under pointwise domination of the
data index. -/
theorem outputExtentVal_le_of_embed (A B : Layout)
    (h : ∀ xs ∈ allIndices A.inputShape, ∃ ys ∈ allIndices B.inputShape,
      A.forwardIndex.getD 0 (fun _ => 0) xs ≤ B.forwardIndex.getD 0 (fun _ => 0) ys) :
    outputExtentVal A ≤ outputExtentVal B := by
  apply Nat.add_le_add_right
  apply sup0_le
  intro a ha
  rcases List.mem_map.mp ha with ⟨xs, hxs, rfl⟩
  rcases h xs hxs with ⟨ys, hys, hle⟩
  exact le_trans hle (le_sup0 (List.mem_map_of_mem _ hys))

/-- `DeReplicate` never increases the thread extent: every new thread value
is an old thread value at a replication argument still inside the old
replication domain. -/
theorem ThreadExtentVal_dereplicate_le (G : Fragment) :
    ThreadExtentVal G.DeReplicate ≤ ThreadExtentVal G := by
  by_cases hf : Nat.gcd G.replicateExtent (outputExtentVal G.toLayout) = 1
  · rw [dereplicate_eq_of_gcd_one G hf]
  · have hfpos : 0 < Nat.gcd G.replicateExtent (outputExtentVal G.toLayout) :=
      Nat.gcd_pos_of_pos_right _ (Nat.succ_pos _)
    apply ThreadExtentVal_le_of_embed
    intro p hp
    rcases mem_fragDomain.mp hp with ⟨hx, hr⟩
    rw [DeReplicate_inputShape G hf] at hx
    rw [DeReplicate_replicateExtent G hf] at hr
    have hq1 : 1 ≤ G.replicateExtent / Nat.gcd G.replicateExtent (outputExtentVal G.toLayout) :=
      Nat.lt_of_le_of_lt (Nat.zero_le _) hr
    have h1 : p.2 * Nat.gcd G.replicateExtent (outputExtentVal G.toLayout)
        ≤ (G.replicateExtent / Nat.gcd G.replicateExtent (outputExtentVal G.toLayout) - 1)
          * Nat.gcd G.replicateExtent (outputExtentVal G.toLayout) :=
      Nat.mul_le_mul_right _ (by omega)
    have h2 : (G.replicateExtent / Nat.gcd G.replicateExtent (outputExtentVal G.toLayout) - 1)
          * Nat.gcd G.replicateExtent (outputExtentVal G.toLayout)
          + Nat.gcd G.replicateExtent (outputExtentVal G.toLayout)
        = (G.replicateExtent / Nat.gcd G.replicateExtent (outputExtentVal G.toLayout))
          * Nat.gcd G.replicateExtent (outputExtentVal G.toLayout) := by
      cases' Nat.exists_eq_add_of_le hq1 with a ha2
      rw [ha2]; simp only [Nat.add_sub_cancel_left]; ring
    have h3 : (G.replicateExtent / Nat.gcd G.replicateExtent (outputExtentVal G.toLayout))
          * Nat.gcd G.replicateExtent (outputExtentVal G.toLayout) ≤ G.replicateExtent :=
      Nat.div_mul_le_self _ _
    have hm : G.forwardIndex.getD 0 (fun _ => 0) p.1
          % Nat.gcd G.replicateExtent (outputExtentVal G.toLayout)
        < Nat.gcd G.replicateExtent (outputExtentVal G.toLayout) :=
      Nat.mod_lt _ hfpos
    have harg : p.2 * Nat.gcd G.replicateExtent (outputExtentVal G.toLayout)
          + G.forwardIndex.getD 0 (fun _ => 0) p.1
            % Nat.gcd G.replicateExtent (outputExtentVal G.toLayout)
        < G.replicateExtent := by omega
    refine ⟨(p.1, p.2 * Nat.gcd G.replicateExtent (outputExtentVal G.toLayout)
        + G.forwardIndex.getD 0 (fun _ => 0) p.1
          % Nat.gcd G.replicateExtent (outputExtentVal G.toLayout)),
      (@mem_fragDomain G _).mpr ⟨hx, harg⟩, ?_⟩
    rw [DeReplicate_forwardThread G hf]

/-- `DeReplicate` never increases the single output extent: the new data
index is the old one divided by `factor`. -/
theorem outputExtentVal_dereplicate_le (G : Fragment) :
    outputExtentVal G.DeReplicate.toLayout ≤ outputExtentVal G.toLayout := by
  by_cases hf : Nat.gcd G.replicateExtent (outputExtentVal G.toLayout) = 1
  · rw [dereplicate_eq_of_gcd_one G hf]
  · apply outputExtentVal_le_of_embed
    intro xs hxs
    rw [show G.DeReplicate.toLayout.inputShape = G.DeReplicate.inputShape from rfl,
      DeReplicate_inputShape G hf] at hxs
    refine ⟨xs, hxs, ?_⟩
    rw [show G.DeReplicate.toLayout.forwardIndex = G.DeReplicate.forwardIndex from rfl,
      DeReplicate_forwardIndex G hf]
    exact Nat.div_le_self _ _

/-- A single-output layout whose index attains 0 has
`OutputShape() = {OutputShape()[0]}`. -/
theorem OutputShape_of_single (L : Layout) (hOD : L.OutputDim = 1)
    (hm : idxMinOk L = true) : L.OutputShape = some [outputExtentVal L] := by
  obtain ⟨f0, hf0⟩ := List.length_eq_one.mp hOD
  have hall : L.forwardIndex.all (fun f => minIsZero L.inputShape f) = true := by
    rw [idxMinOk, hf0] at hm
    rw [hf0]
    simpa using hm
  rw [Layout.OutputShape, if_pos hall, outputShapeVal, outputExtentVal, hf0]
  rfl

/-- The flattening loop of `LoopPartitioner::Partition`, started from any
accumulator, computes the row-major flattened index plus the scaled
accumulator. -/
theorem flattenLoop_foldl (extents : List Nat) :
    ∀ (xs : List Nat) (acc : Nat), xs.length = extents.length →
      (List.zip extents xs).foldl (fun a p => a * p.1 + p.2) acc
        = acc * extents.prod + specRowMajorFlatten extents xs := by
  induction extents with
  | nil =>
    intro xs acc hlen
    have : xs = [] := List.length_eq_zero.mp hlen
    subst this
    simp [specRowMajorFlatten]
  | cons e es ih =>
    intro xs acc hlen
    cases xs with
    | nil => cases hlen
    | cons x xt =>
      have hlen2 : xt.length = es.length := by simpa using hlen
      show (List.zip es xt).foldl (fun a p => a * p.1 + p.2) (acc * e + x)
          = acc * (e :: es).prod + specRowMajorFlatten (e :: es) (x :: xt)
      rw [ih xt (acc * e + x) hlen2]
      show (acc * e + x) * es.prod + specRowMajorFlatten es xt
          = acc * (e * es.prod) + (x * es.prod + specRowMajorFlatten es xt)
      ring

/-- The code's flattened index is exactly the spec's row-major flattened
index over the collected dimensions. -/
theorem flattenLoop_eq_rowMajor (extents xs : List Nat)
    (hlen : xs.length = extents.length) :
    flattenLoop extents xs = specRowMajorFlatten extents xs := by
  have := flattenLoop_foldl extents xs 0 hlen
  simpa [flattenLoop] using this

/-- C10: for all `0 ≤ i, j < 8`, `xor8x8(i, j)` is the bitwise XOR of `i`
and `j`; likewise `xor4x4` below 4 and `xor2x2` below 2. -/
theorem C10_xor_is_bitwise_xor :
    (∀ i, i < 8 → ∀ j, j < 8 → xor8x8 i j = i ^^^ j)
    ∧ (∀ i, i < 4 → ∀ j, j < 4 → xor4x4 i j = i ^^^ j)
    ∧ (∀ i, i < 2 → ∀ j, j < 2 → xor2x2 i j = i ^^^ j) := by
  decide

/-- C10 witness: the theorem instantiated at `i = 6`, `j = 5`. -/
theorem C10_xor_witness : 6 < 8 ∧ 5 < 8 ∧ xor8x8 6 5 = 3 := by
  refine ⟨by decide, by decide, ?_⟩
  have h := C10_xor_is_bitwise_xor.1 6 (by decide) 5 (by decide)
  exact h.trans (by decide)

/-- C2 (code bug): `LoopPartitioner::Partition` does not abort on a parallel
loop of extent 256 with `num_thread = 100`, although `256 % 100 ≠ 0`:
`ICHECK("Not Implemented case.")` tests a non-null string literal, which is
always truthy, so the not-implemented branch never fails and the fragment is
built anyway. -/
theorem C2_partition_not_implemented_check_never_fires :
    ((256 : Nat) % 100 ≠ 0)
    ∧ partitionAborts (Stmt.forStmt ForKind.parallel 256 Stmt.evaluate) 100 = false
    ∧ (partitionFragment (Stmt.forStmt ForKind.parallel 256 Stmt.evaluate) 100).InputShape
        = [256] := by
  refine ⟨by decide, by decide, by decide⟩

/-- C4 counterexample: on a serial loop wrapping a parallel loop of extent
8, `Partition` still collects the nested parallel loop (the claim says a
parallel loop below a non-parallel loop is never collected). -/
theorem C4_counterexample :
    (partitionFragment (Stmt.forStmt ForKind.serial 4
        (Stmt.forStmt ForKind.parallel 8 Stmt.evaluate)) 8).InputShape = [8] := by
  decide

/-- C4 amended: the collector does not stop at non-parallel loops or
non-loop statements — it collects exactly the parallel-kind loops of the
whole statement tree, at any depth. -/
theorem C4_collects_all_parallel_loops (e : Nat) (s : Stmt) :
    ParallelOccurs e s ↔ e ∈ collect s := by
  constructor
  · intro h
    induction h with
    | here b => simp [collect]
    | inBody k e2 _ ih =>
      exact List.mem_append.mpr (Or.inr ih)
    | inSeqFst b _ ih =>
      exact List.mem_append.mpr (Or.inl ih)
    | inSeqSnd a _ ih =>
      exact List.mem_append.mpr (Or.inr ih)
  · intro h
    induction s with
    | forStmt k e2 b ih =>
      rcases List.mem_append.mp h with h1 | h1
      · by_cases hk : k = ForKind.parallel
        · subst hk
          rw [if_pos rfl] at h1
          rcases List.mem_singleton.mp h1 with rfl
          exact ParallelOccurs.here _ _
        · rw [if_neg hk] at h1
          cases h1
      · exact ParallelOccurs.inBody _ _ (ih h1)
    | seq a b iha ihb =>
      rcases List.mem_append.mp h with h1 | h1
      · exact ParallelOccurs.inSeqFst _ (iha h1)
      · exact ParallelOccurs.inSeqSnd _ (ihb h1)
    | evaluate => cases h

/-- C5: `Repeat(counts, true, ldf)` multiplies `ThreadExtent()` by the
product of the counts; `Repeat(counts, false, ldf)` (which requires
`OutputDim() == 1`) leaves `ThreadExtent()` unchanged and multiplies the
single output extent by the product of the counts. -/
theorem C5_repeat_thread_and_data_extents (F : Fragment) (counts : List Nat) (ldf : Bool)
    (hlen : counts.length = F.InputDim) (he : ∀ e ∈ F.inputShape, 1 ≤ e)
    (hc : ∀ c ∈ counts, 1 ≤ c) (hr : 1 ≤ F.replicateExtent)
    (htm : threadMinOk F = true) :
    (F.Repeat counts true ldf).ThreadExtent = some (ThreadExtentVal F * counts.prod)
    ∧ (F.Repeat counts false ldf).ThreadExtent = F.ThreadExtent
    ∧ (F.OutputDim = 1 →
        outputExtentVal (F.Repeat counts false ldf).toLayout
          = outputExtentVal F.toLayout * counts.prod) := by
  have h1 := ThreadExtentVal_repeat_on_thread F counts ldf hlen he hc hr
  have h2 := ThreadExtentVal_repeat_on_data F counts ldf hlen he hc hr
  have hm1 := threadMinOk_repeat F counts true ldf hlen hc htm
  have hm2 := threadMinOk_repeat F counts false ldf hlen hc htm
  refine ⟨?_, ?_, fun _ => outputExtentVal_repeat_on_data F counts ldf hlen he hc⟩
  · simp only [Fragment.ThreadExtent, if_pos hm1, h1]
  · simp only [Fragment.ThreadExtent, if_pos hm2, if_pos htm, h2]

set_option maxRecDepth 40000 in
/-- C5 witness: the theorem instantiated at the 8×8 GEMM fragment with
counts `{2, 3}`. -/
theorem C5_repeat_witness :
    (([2, 3] : List Nat).length = makeGemmFragment8x8.InputDim
      ∧ (∀ e ∈ makeGemmFragment8x8.inputShape, 1 ≤ e)
      ∧ (∀ c ∈ ([2, 3] : List Nat), 1 ≤ c)
      ∧ 1 ≤ makeGemmFragment8x8.replicateExtent
      ∧ threadMinOk makeGemmFragment8x8 = true)
    ∧ ((makeGemmFragment8x8.Repeat [2, 3] true true).ThreadExtent
        = some (ThreadExtentVal makeGemmFragment8x8 * ([2, 3] : List Nat).prod)
      ∧ (makeGemmFragment8x8.Repeat [2, 3] false true).ThreadExtent
        = makeGemmFragment8x8.ThreadExtent
      ∧ (makeGemmFragment8x8.OutputDim = 1 →
          outputExtentVal (makeGemmFragment8x8.Repeat [2, 3] false true).toLayout
            = outputExtentVal makeGemmFragment8x8.toLayout * ([2, 3] : List Nat).prod)) :=
  ⟨⟨by decide, by decide, by decide, by decide, by decide⟩,
    C5_repeat_thread_and_data_extents makeGemmFragment8x8 [2, 3] true
      (by decide) (by decide) (by decide) (by decide) (by decide)⟩

/-- C6: the fragment `Partition` builds maps the collected loop variables to
data index `floordiv(flattened, thread_count)` and thread id
`floormod(flattened, thread_count)` — with `flattened` the row-major
flattened index over the collected dimensions — and has replicate extent 1. -/
theorem C6_partition_fragment_maps (s : Stmt) (num_thread : Nat)
    (hT : 1 ≤ num_thread) (hdiv : (collect s).prod % num_thread = 0) :
    ∀ xs ∈ allIndices (collect s),
      (partitionFragment s num_thread).Forward xs
          = [specRowMajorFlatten (collect s) xs / num_thread]
      ∧ (∀ r, (partitionFragment s num_thread).ForwardThread xs r
          = specRowMajorFlatten (collect s) xs % num_thread)
      ∧ (partitionFragment s num_thread).ReplicateExtent = 1 := by
  intro xs hxs
  have hlen : xs.length = (collect s).length := length_of_mem_allIndices hxs
  have hf := flattenLoop_eq_rowMajor (collect s) xs hlen
  refine ⟨?_, fun r => ?_, rfl⟩
  · show [flattenLoop (collect s) xs / num_thread]
        = [specRowMajorFlatten (collect s) xs / num_thread]
    rw [hf]
  · show flattenLoop (collect s) xs % num_thread
        = specRowMajorFlatten (collect s) xs % num_thread
    rw [hf]

/-- C6 witness: the theorem instantiated on a 4×8 parallel nest with 8
threads at the point `(3, 5)`. -/
theorem C6_partition_witness :
    (1 ≤ 8 ∧ (collect partitionExampleStmt).prod % 8 = 0
      ∧ [3, 5] ∈ allIndices (collect partitionExampleStmt))
    ∧ ((partitionFragment partitionExampleStmt 8).Forward [3, 5]
        = [specRowMajorFlatten (collect partitionExampleStmt) [3, 5] / 8]
      ∧ (∀ r, (partitionFragment partitionExampleStmt 8).ForwardThread [3, 5] r
        = specRowMajorFlatten (collect partitionExampleStmt) [3, 5] % 8)
      ∧ (partitionFragment partitionExampleStmt 8).ReplicateExtent = 1) :=
  ⟨⟨by decide, by decide, by decide⟩,
    C6_partition_fragment_maps partitionExampleStmt 8 (by decide) (by decide)
      [3, 5] (by decide)⟩

set_option maxRecDepth 40000 in
/-- C7 counterexample: for the 8×8 GEMM fragment (replicate extent 1) and
`n = 2`, `gcd(1, 2) = 1` yet `Replicate(2).DeReplicate()` changes
`OutputShape()` (from `{2}` to `{1}`): the code's `factor` is the GCD of the
post-replication extent and the output extent, not of the pre-replication
extent and `n`. -/
theorem C7_counterexample :
    Nat.gcd makeGemmFragment8x8.replicateExtent 2 = 1
    ∧ ((makeGemmFragment8x8.Replicate 2).DeReplicate).OutputShape
        ≠ (makeGemmFragment8x8.Replicate 2).OutputShape := by
  refine ⟨by decide, by decide⟩

/-- C7 amended: `Replicate(n).DeReplicate()` is the identity whenever the
GCD of the post-replication extent (`rep_before · n`) and the output extent
is 1; and in all cases `DeReplicate` never increases `ThreadExtent` or the
output extent. -/
theorem C7_dereplicate_amended (F G : Fragment) (n : Nat)
    (hF : F.OutputDim = 1) (hG : G.OutputDim = 1) (hn : 1 ≤ n) :
    (Nat.gcd (F.replicateExtent * n) (outputExtentVal F.toLayout) = 1 →
      (F.Replicate n).DeReplicate = F.Replicate n)
    ∧ ThreadExtentVal G.DeReplicate ≤ ThreadExtentVal G
    ∧ outputExtentVal G.DeReplicate.toLayout ≤ outputExtentVal G.toLayout := by
  refine ⟨fun h => dereplicate_eq_of_gcd_one _ ?_, ThreadExtentVal_dereplicate_le G,
    outputExtentVal_dereplicate_le G⟩
  exact h

set_option maxRecDepth 40000 in
/-- C7 witness: the amended theorem instantiated at the 8×8 GEMM fragment
with `n = 3` (so the post-replication GCD with the output extent 2 is 1). -/
theorem C7_dereplicate_witness :
    (makeGemmFragment8x8.OutputDim = 1 ∧ 1 ≤ 3
      ∧ Nat.gcd (makeGemmFragment8x8.replicateExtent * 3)
          (outputExtentVal makeGemmFragment8x8.toLayout) = 1)
    ∧ ((makeGemmFragment8x8.Replicate 3).DeReplicate = makeGemmFragment8x8.Replicate 3
      ∧ ThreadExtentVal makeGemmFragment8x8.DeReplicate
          ≤ ThreadExtentVal makeGemmFragment8x8
      ∧ outputExtentVal makeGemmFragment8x8.DeReplicate.toLayout
          ≤ outputExtentVal makeGemmFragment8x8.toLayout) := by
  have h := C7_dereplicate_amended makeGemmFragment8x8 makeGemmFragment8x8 3
    (by decide) (by decide) (by decide)
  exact ⟨⟨by decide, by decide, by decide⟩, h.1 (by decide), h.2.1, h.2.2⟩

/-- C9: whenever `OutputShape()` returns, it has one extent per output
expression, every output value over the domain lies in `[0, extent)`, and 0
is attained (the inferred minimum is exactly 0); otherwise the check fails. -/
theorem C9_output_shape_bounds (L : Layout) (s : List Nat)
    (h : L.OutputShape = some s) :
    s.length = L.OutputDim
    ∧ ∀ i, i < s.length →
        (∀ xs ∈ allIndices L.inputShape,
          L.forwardIndex.getD i (fun _ => 0) xs < s.getD i 0)
        ∧ ∃ xs ∈ allIndices L.inputShape,
          L.forwardIndex.getD i (fun _ => 0) xs = 0 := by
  rw [Layout.OutputShape] at h
  by_cases hall : L.forwardIndex.all (fun f => minIsZero L.inputShape f) = true
  case neg => rw [if_neg hall] at h; cases h
  rw [if_pos hall] at h
  have hs : s = outputShapeVal L := (Option.some.inj h).symm
  subst hs
  refine ⟨by simp [outputShapeVal, Layout.OutputDim], ?_⟩
  intro i hi
  have hiL : i < L.forwardIndex.length := by
    simpa [outputShapeVal] using hi
  have hgi : L.forwardIndex.getD i (fun _ => 0) = L.forwardIndex.get ⟨i, hiL⟩ := by
    rw [List.getD_eq_getElem L.forwardIndex _ hiL]
    simp
  have hsi : (outputShapeVal L).getD i 0
      = intSetMax L.inputShape (L.forwardIndex.get ⟨i, hiL⟩) + 1 := by
    rw [outputShapeVal, List.getD_eq_getElem _ _ (by simpa using hiL)]
    simp
  constructor
  · intro xs hxs
    rw [hgi, hsi]
    have : (L.forwardIndex.get ⟨i, hiL⟩) xs
        ≤ intSetMax L.inputShape (L.forwardIndex.get ⟨i, hiL⟩) :=
      le_sup0 (List.mem_map_of_mem _ hxs)
    omega
  · have hmem : L.forwardIndex.get ⟨i, hiL⟩ ∈ L.forwardIndex := List.get_mem _ _ hiL
    have hmin := List.all_eq_true.mp hall _ hmem
    rw [minIsZero, List.any_eq_true] at hmin
    rcases hmin with ⟨xs, hxs, hv⟩
    rw [beq_iff_eq] at hv
    exact ⟨xs, hxs, by rw [hgi]; exact hv⟩

/-- C9 witness: the theorem instantiated at the identity layout on
`[0, 3)`, whose `OutputShape()` is `{3}`. -/
theorem C9_output_shape_witness :
    idLayout3.OutputShape = some [3]
    ∧ (([3] : List Nat).length = idLayout3.OutputDim
      ∧ ∀ i, i < ([3] : List Nat).length →
          (∀ xs ∈ allIndices idLayout3.inputShape,
            idLayout3.forwardIndex.getD i (fun _ => 0) xs < ([3] : List Nat).getD i 0)
          ∧ ∃ xs ∈ allIndices idLayout3.inputShape,
            idLayout3.forwardIndex.getD i (fun _ => 0) xs = 0) :=
  ⟨by decide, C9_output_shape_bounds idLayout3 [3] (by decide)⟩

set_option maxRecDepth 40000 in
/-- The concrete thread extent and output shape of
`makeGemmFragmentC(64, 64, 32, 32, 16)`, derived stage by stage through the
`Repeat` lemmas with the 8×8 base fragment evaluated directly. -/
theorem gemmFragmentC_64_spec :
    (makeGemmFragmentC 64 64 32 32 16).ThreadExtent = some 128
    ∧ (makeGemmFragmentC 64 64 32 32 16).OutputShape = some [32] := by
  have hC : makeGemmFragmentC 64 64 32 32 16 = gemmCStage3 := rfl
  -- the 8×8 base fragment, evaluated
  have hT8 : ThreadExtentVal makeGemmFragment8x8 = 32 := by decide
  have hO8 : outputExtentVal makeGemmFragment8x8.toLayout = 2 := by decide
  have hm8 : threadMinOk makeGemmFragment8x8 = true := by decide
  have hi8 : idxMinOk makeGemmFragment8x8.toLayout = true := by decide
  have hlen1 : ([2, 1] : List Nat).length = makeGemmFragment8x8.InputDim := by decide
  have he8 : ∀ e ∈ makeGemmFragment8x8.inputShape, 1 ≤ e := by decide
  have hc1 : ∀ c ∈ ([2, 1] : List Nat), 1 ≤ c := by decide
  have hr8 : 1 ≤ makeGemmFragment8x8.replicateExtent := by decide
  have hOD8 : makeGemmFragment8x8.OutputDim = 1 := by decide
  -- stage 1: data-side repeat {2, 1}
  have hT1 : ThreadExtentVal gemmCStage1 = 32 := by
    show ThreadExtentVal (makeGemmFragment8x8.Repeat [2, 1] false true) = 32
    rw [ThreadExtentVal_repeat_on_data makeGemmFragment8x8 [2, 1] true hlen1 he8 hc1 hr8]
    exact hT8
  have hO1 : outputExtentVal gemmCStage1.toLayout = 4 := by
    show outputExtentVal (makeGemmFragment8x8.Repeat [2, 1] false true).toLayout = 4
    rw [outputExtentVal_repeat_on_data makeGemmFragment8x8 [2, 1] true hlen1 he8 hc1, hO8]
    decide
  have hm1 : threadMinOk gemmCStage1 = true :=
    threadMinOk_repeat makeGemmFragment8x8 [2, 1] false true hlen1 hc1 hm8
  have hi1 : idxMinOk gemmCStage1.toLayout = true :=
    idxMinOk_repeat_on_data makeGemmFragment8x8 [2, 1] true hlen1 hc1 hi8
  have hOD1 : gemmCStage1.OutputDim = 1 := rfl
  have hlen2 : ([2, 2] : List Nat).length = gemmCStage1.InputDim := by decide
  have he1 : ∀ e ∈ gemmCStage1.inputShape, 1 ≤ e := by decide
  have hc2 : ∀ c ∈ ([2, 2] : List Nat), 1 ≤ c := by decide
  have hr1 : 1 ≤ gemmCStage1.replicateExtent := by decide
  -- stage 2: thread-side repeat {2, 2}
  have hT2 : ThreadExtentVal gemmCStage2 = 128 := by
    show ThreadExtentVal (gemmCStage1.Repeat [2, 2] true false) = 128
    rw [ThreadExtentVal_repeat_on_thread gemmCStage1 [2, 2] false hlen2 he1 hc2 hr1, hT1]
    decide
  have hO2 : outputExtentVal gemmCStage2.toLayout = 4 := by
    show outputExtentVal (gemmCStage1.Repeat [2, 2] true false).toLayout = 4
    rw [outputExtentVal_repeat_on_thread gemmCStage1 [2, 2] false hOD1 hlen2 he1 hc2]
    exact hO1
  have hm2 : threadMinOk gemmCStage2 = true :=
    threadMinOk_repeat gemmCStage1 [2, 2] true false hlen2 hc2 hm1
  have hi2 : idxMinOk gemmCStage2.toLayout = true :=
    idxMinOk_repeat_on_thread gemmCStage1 [2, 2] false hOD1 hlen2 hc2 hi1
  have hOD2 : gemmCStage2.OutputDim = 1 := by
    show (gemmCStage1.Repeat [2, 2] true false).forwardIndex.length = 1
    rw [Repeat_true_forwardIndex, List.length_map]
    exact hOD1
  have hlen3 : ([2, 4] : List Nat).length = gemmCStage2.InputDim := by decide
  have he2 : ∀ e ∈ gemmCStage2.inputShape, 1 ≤ e := by decide
  have hc3 : ∀ c ∈ ([2, 4] : List Nat), 1 ≤ c := by decide
  have hr2 : 1 ≤ gemmCStage2.replicateExtent := by decide
  -- stage 3: data-side repeat {2, 4}
  have hT3 : ThreadExtentVal gemmCStage3 = 128 := by
    show ThreadExtentVal (gemmCStage2.Repeat [2, 4] false false) = 128
    rw [ThreadExtentVal_repeat_on_data gemmCStage2 [2, 4] false hlen3 he2 hc3 hr2]
    exact hT2
  have hO3 : outputExtentVal gemmCStage3.toLayout = 32 := by
    show outputExtentVal (gemmCStage2.Repeat [2, 4] false false).toLayout = 32
    rw [outputExtentVal_repeat_on_data gemmCStage2 [2, 4] false hlen3 he2 hc3, hO2]
    decide
  have hm3 : threadMinOk gemmCStage3 = true :=
    threadMinOk_repeat gemmCStage2 [2, 4] false false hlen3 hc3 hm2
  have hi3 : idxMinOk gemmCStage3.toLayout = true :=
    idxMinOk_repeat_on_data gemmCStage2 [2, 4] false hlen3 hc3 hi2
  have hOD3 : gemmCStage3.OutputDim = 1 := rfl
  rw [hC]
  constructor
  · simp only [Fragment.ThreadExtent, if_pos hm3, hT3]
  · rw [OutputShape_of_single gemmCStage3.toLayout hOD3 hi3, hO3]

/-- C3 counterexample: `makeGemmFragmentC(64, 64, 32, 32, 16)` does not have
`ThreadExtent() == 32` (a 64×64 block of 32×32 warps carries 4 warps of 32
lanes). -/
theorem C3_counterexample :
    (makeGemmFragmentC 64 64 32 32 16).ThreadExtent ≠ some 32 := by
  rw [gemmFragmentC_64_spec.1]
  decide

/-- C3 amended: `makeGemmFragmentC(64, 64, 32, 32, 16)` has
`ThreadExtent() == 128` (4 warps × 32 lanes) and `OutputShape() == {32}`
(64·64/128 register elements per thread), consistent with the 64×64 tile
split into 32×32 warp tiles of 8×8 atoms. -/
theorem C3_gemm_fragment_C_extents :
    (makeGemmFragmentC 64 64 32 32 16).ThreadExtent = some 128
    ∧ (makeGemmFragmentC 64 64 32 32 16).OutputShape = some [32] :=
  gemmFragmentC_64_spec

/-- Pointwise bound extracted from a `Forall₂` domain membership. -/
theorem forall2_getD_lt {xs shape : List Nat} (h : List.Forall₂ (· < ·) xs shape)
    {i : Nat} (hi : i < shape.length) : xs.getD i 0 < shape.getD i 0 := by
  rcases List.forall₂_iff_get.mp h with ⟨hlen, hget⟩
  have hix : i < xs.length := by omega
  rw [List.getD_eq_getElem xs 0 hix, List.getD_eq_getElem shape 0 hi]
  exact hget i hix hi

/-- Overwriting one coordinate with an in-range value keeps a tuple inside
the iteration domain. -/
theorem set_mem_allIndices {xs shape : List Nat} (h : xs ∈ allIndices shape)
    {i v : Nat} (hv : v < shape.getD i 0) (hi : i < shape.length) :
    xs.set i v ∈ allIndices shape := by
  rw [mem_allIndices] at h ⊢
  rcases List.forall₂_iff_get.mp h with ⟨hlen, hget⟩
  refine List.forall₂_iff_get.mpr ⟨by simpa using hlen, ?_⟩
  intro j h1 h2
  by_cases hji : j = i
  · subst hji
    have hjx : j < xs.length := by simpa using h1
    rw [show (xs.set j v).get ⟨j, h1⟩ = (xs.set j v)[j] from rfl]
    rw [List.getElem_set_self]
    rw [show shape.get ⟨j, h2⟩ = shape[j] from rfl]
    rw [List.getD_eq_getElem shape 0 h2] at hv
    exact hv
  · have hjx : j < xs.length := by simpa using h1
    rw [show (xs.set i v).get ⟨j, h1⟩ = (xs.set i v)[j] from rfl]
    rw [List.getElem_set_ne (fun hh => hji hh.symm)]
    exact hget j hjx h2

/-- A forward image of a domain point lies in the output box
`[0, OutputShape())`: every component is bounded by its inferred maximum. -/
theorem forward_mem_box (L : Layout) {xs : List Nat}
    (hx : xs ∈ allIndices L.inputShape) :
    L.Forward xs ∈ allIndices (outputShapeVal L) := by
  rw [mem_allIndices, Layout.Forward, outputShapeVal,
    List.forall₂_map_left_iff, List.forall₂_map_right_iff, List.forall₂_same]
  intro f _hf
  have : f xs ≤ intSetMax L.inputShape f := le_sup0 (List.mem_map_of_mem _ hx)
  omega

/-- `invertAt` always returns a tuple of the layout's input arity. -/
theorem invertAt_length (L : Layout) (zs : List Nat) :
    (invertAt L zs).length = L.InputDim := by
  unfold invertAt
  cases hfind : (allIndices L.inputShape).find? (fun xs => L.Forward xs == zs) with
  | none => simp [List.length_replicate]
  | some ys =>
    have hmem := List.mem_of_find?_eq_some hfind
    simp [length_of_mem_allIndices hmem, Layout.InputDim]

/-- On an injective forward map, `invertAt` undoes `Forward`. -/
theorem invertAt_forward (L : Layout)
    (hinj : ∀ xs ∈ allIndices L.inputShape, ∀ ys ∈ allIndices L.inputShape,
      L.Forward xs = L.Forward ys → xs = ys)
    {xs : List Nat} (hx : xs ∈ allIndices L.inputShape) :
    invertAt L (L.Forward xs) = xs := by
  unfold invertAt
  cases hfind : (allIndices L.inputShape).find? (fun ys => L.Forward ys == L.Forward xs) with
  | none =>
    exfalso
    exact (List.find?_eq_none.mp hfind xs hx) (by simp)
  | some ys =>
    have hmem := List.mem_of_find?_eq_some hfind
    have heq : L.Forward ys = L.Forward xs := by
      have := List.find?_some hfind
      simpa using this
    simpa using hinj ys hmem xs hx heq

/-- On a surjective forward map, `invertAt` lands in the input domain and is
a right inverse of `Forward` on the output box. -/
theorem invertAt_mem_and_forward (L : Layout)
    (hsurj : ∀ zs ∈ allIndices (outputShapeVal L),
      ∃ xs ∈ allIndices L.inputShape, L.Forward xs = zs)
    {zs : List Nat} (hz : zs ∈ allIndices (outputShapeVal L)) :
    invertAt L zs ∈ allIndices L.inputShape ∧ L.Forward (invertAt L zs) = zs := by
  rcases hsurj zs hz with ⟨xs, hxs, hfwd⟩
  unfold invertAt
  cases hfind : (allIndices L.inputShape).find? (fun ys => L.Forward ys == zs) with
  | none =>
    exfalso
    exact (List.find?_eq_none.mp hfind xs hxs) (by simp [hfwd])
  | some ys =>
    have hmem := List.mem_of_find?_eq_some hfind
    have heq : L.Forward ys = zs := by
      have := List.find?_some hfind
      simpa using this
    simpa using ⟨hmem, heq⟩

/-- Reading a list back through `getD` over `range` reproduces it. -/
theorem range_map_getD (l : List Nat) (n : Nat) (h : l.length = n) :
    (List.range n).map (fun i => l.getD i 0) = l := by
  apply List.ext_getElem
  · simp [h]
  · intro i h1 h2
    simp only [List.getElem_map, List.getElem_range]
    exact List.getD_eq_getElem l 0 h2

/-- The forward map of `Inverse()` is exactly the pointwise inversion of the
original forward map. -/
theorem forward_inverse (L : Layout) (zs : List Nat) :
    (L.Inverse).Forward zs = invertAt L zs := by
  show ((List.range L.InputDim).map
      (fun i => fun ws => (invertAt L ws).getD i 0)).map (fun f => f zs) = invertAt L zs
  rw [List.map_map]
  exact range_map_getD _ _ (invertAt_length L zs)

/-- Reading the `i`-th element of a map over `range` through `getD`. -/
theorem getD_map_range (k : Nat → Nat) (n i : Nat) (hi : i < n) :
    ((List.range n).map k).getD i 0 = k i := by
  rw [List.getD_eq_getElem _ 0 (by simpa using hi)]
  simp [List.getElem_map, List.getElem_range]

/-- The inferred output shape of `Inverse()` is the original input shape:
the backward indices sweep exactly the original domain. -/
theorem outputShapeVal_inverse (L : Layout) (hb : DetectedBijective L) :
    outputShapeVal (L.Inverse) = L.inputShape := by
  obtain ⟨hpos, hinj, hsurj⟩ := hb
  have hform : outputShapeVal (L.Inverse) = (List.range L.InputDim).map
      (fun j => intSetMax (outputShapeVal L) (fun ws => (invertAt L ws).getD j 0) + 1) := by
    show ((List.range L.InputDim).map
        (fun j => fun ws => (invertAt L ws).getD j 0)).map
        (fun f => intSetMax (L.Inverse).inputShape f + 1) = _
    rw [List.map_map]
    rfl
  have hlen : (outputShapeVal (L.Inverse)).length = L.inputShape.length := by
    simp [hform, Layout.InputDim]
  apply List.ext_getElem hlen
  intro i h1 h2
  rw [← List.getD_eq_getElem _ 0 h1, ← List.getD_eq_getElem _ 0 h2]
  have hiN : i < L.InputDim := h2
  rw [hform, getD_map_range _ _ _ hiN]
  have hei : 1 ≤ L.inputShape.getD i 0 := by
    rw [List.getD_eq_getElem _ 0 h2]
    exact hpos _ (List.getElem_mem h2)
  have hle : intSetMax (outputShapeVal L) (fun ws => (invertAt L ws).getD i 0)
      ≤ L.inputShape.getD i 0 - 1 := by
    apply sup0_le
    intro a ha
    rcases List.mem_map.mp ha with ⟨zs, hzs, rfl⟩
    have hmem := (invertAt_mem_and_forward L hsurj hzs).1
    have := forall2_getD_lt (mem_allIndices.mp hmem) h2
    omega
  have hge : L.inputShape.getD i 0 - 1
      ≤ intSetMax (outputShapeVal L) (fun ws => (invertAt L ws).getD i 0) := by
    have hxmem : L.inputShape.map (fun e => e - 1) ∈ allIndices L.inputShape := by
      rw [mem_allIndices, List.forall₂_map_left_iff, List.forall₂_same]
      intro e he
      have := hpos e he
      omega
    have hzmem := forward_mem_box L hxmem
    have hrec := invertAt_forward L hinj hxmem
    have hpt : (invertAt L (L.Forward (L.inputShape.map (fun e => e - 1)))).getD i 0
        = L.inputShape.getD i 0 - 1 := by
      rw [hrec]
      rw [List.getD_eq_getElem _ 0 (show i < (L.inputShape.map (fun e => e - 1)).length by
        simpa using h2)]
      rw [List.getD_eq_getElem _ 0 h2]
      simp [List.getElem_map]
    calc L.inputShape.getD i 0 - 1
        = (invertAt L (L.Forward (L.inputShape.map (fun e => e - 1)))).getD i 0 := hpt.symm
    _ ≤ intSetMax (outputShapeVal L) (fun ws => (invertAt L ws).getD i 0) :=
        le_sup0 (List.mem_map_of_mem _ hzmem)
  omega

/-- `Inverse()` of a detected-bijective layout is itself detected bijective
(in particular its own `Inverse()` is well defined). -/
theorem detectedBijective_inverse (L : Layout) (hb : DetectedBijective L) :
    DetectedBijective (L.Inverse) := by
  obtain ⟨hpos, hinj, hsurj⟩ := hb
  refine ⟨?_, ?_, ?_⟩
  · intro e he
    rcases List.mem_map.mp he with ⟨f, _, rfl⟩
    exact Nat.succ_le_succ (Nat.zero_le _)
  · intro zs hzs ws hws heq
    rw [forward_inverse, forward_inverse] at heq
    have h1 := (invertAt_mem_and_forward L hsurj hzs).2
    have h2 := (invertAt_mem_and_forward L hsurj hws).2
    rw [← h1, ← h2, heq]
  · intro xs hxs
    rw [outputShapeVal_inverse L ⟨hpos, hinj, hsurj⟩] at hxs
    refine ⟨L.Forward xs, forward_mem_box L hxs, ?_⟩
    rw [forward_inverse]
    exact invertAt_forward L hinj hxs

/-- C1: for a layout whose forward map is detected bijective-affine,
`Inverse().Inverse()` is semantically equal to the original layout (equal
`InputDim`, equal `InputShape`, equal forward maps on the domain). -/
theorem C1_inverse_involution (L : Layout) (hb : DetectedBijective L) :
    SemEqual ((L.Inverse).Inverse) L := by
  have hb2 := detectedBijective_inverse L hb
  obtain ⟨hpos, hinj, hsurj⟩ := hb
  have hshape : ((L.Inverse).Inverse).inputShape = L.inputShape := by
    show outputShapeVal (L.Inverse) = L.inputShape
    exact outputShapeVal_inverse L ⟨hpos, hinj, hsurj⟩
  refine ⟨?_, hshape, ?_⟩
  · show ((L.Inverse).Inverse).inputShape.length = L.inputShape.length
    rw [hshape]
  · intro xs hxs
    rw [forward_inverse]
    have h2 : (L.Inverse).Forward (L.Forward xs) = xs := by
      rw [forward_inverse]
      exact invertAt_forward L hinj hxs
    have h3 := invertAt_forward (L.Inverse) hb2.2.1 (forward_mem_box L hxs)
    rw [h2] at h3
    exact h3

/-- C1 witness: the coordinate-swapping layout on `[0, 2) × [0, 2)`. -/
theorem C1_inverse_witness :
    DetectedBijective swapLayout ∧ SemEqual ((swapLayout.Inverse).Inverse) swapLayout :=
  ⟨by decide, C1_inverse_involution swapLayout (by decide)⟩

/-- C8: `Inverse()` of a detected-bijective layout takes fresh variables
bounded by `OutputShape()`, and the backward index of every input variable
the forward map does not determine is constantly 0 on the output box. -/
theorem C8_inverse_undetermined_zero (L : Layout) (i : Nat)
    (hi : i < L.InputDim) (hb : DetectedBijective L) (hu : UndeterminedVar L i) :
    (L.Inverse).inputShape = outputShapeVal L
    ∧ ∀ zs ∈ allIndices (outputShapeVal L), ((L.Inverse).Forward zs).getD i 0 = 0 := by
  obtain ⟨hpos, hinj, hsurj⟩ := hb
  refine ⟨rfl, ?_⟩
  have hlen : i < L.inputShape.length := hi
  have hei : 1 ≤ L.inputShape.getD i 0 := by
    rw [List.getD_eq_getElem L.inputShape 0 hlen]
    exact hpos _ (List.getElem_mem hlen)
  have hshape1 : L.inputShape.getD i 0 = 1 := by
    by_contra hne
    have h2le : 2 ≤ L.inputShape.getD i 0 := by omega
    have hzmem := zeros_mem_allIndices hpos
    have hset0 : (L.inputShape.map (fun _ => 0)).set i 0 ∈ allIndices L.inputShape :=
      set_mem_allIndices hzmem (by omega) hlen
    have hset1 : (L.inputShape.map (fun _ => 0)).set i 1 ∈ allIndices L.inputShape :=
      set_mem_allIndices hzmem (by omega) hlen
    have hf0 := hu (L.inputShape.map (fun _ => 0)) hzmem 0 (List.mem_range.mpr (by omega))
    have hf1 := hu (L.inputShape.map (fun _ => 0)) hzmem 1 (List.mem_range.mpr (by omega))
    have heq : (L.inputShape.map (fun _ => 0)).set i 0
        = (L.inputShape.map (fun _ => 0)).set i 1 :=
      hinj _ hset0 _ hset1 (hf0.trans hf1.symm)
    have hgl : i < ((L.inputShape.map (fun _ => 0)).set i 0).length := by simpa using hlen
    have := congrArg (fun l => l.getD i 0) heq
    simp only [List.getD_eq_getElem _ 0 hgl,
      List.getD_eq_getElem _ 0 (by simpa using hlen :
        i < ((L.inputShape.map (fun _ => 0)).set i 1).length)] at this
    rw [List.getElem_set_self, List.getElem_set_self] at this
    exact absurd this (by omega)
  intro zs hz
  rw [forward_inverse]
  have hmem := (invertAt_mem_and_forward L hsurj hz).1
  have hlt := forall2_getD_lt (mem_allIndices.mp hmem) hlen
  omega

/-- C8 witness: the layout dropping a degenerate size-1 first input. -/
theorem C8_inverse_witness :
    (0 < dropLayout.InputDim ∧ DetectedBijective dropLayout ∧ UndeterminedVar dropLayout 0)
    ∧ ((dropLayout.Inverse).inputShape = outputShapeVal dropLayout
      ∧ ∀ zs ∈ allIndices (outputShapeVal dropLayout),
          ((dropLayout.Inverse).Forward zs).getD 0 0 = 0) :=
  ⟨⟨by decide, by decide, by decide⟩,
    C8_inverse_undetermined_zero dropLayout 0 (by decide) (by decide) (by decide)⟩

end TL
